import Mathlib

/-!
Verification development for the `runtime` package of the deta-cli repository
(`src/runtime/manager.go`): a shallow embedding of the snapshot / change
detection engine and of the dependency differ, together with theorems that
settle the specification claims against the embedded code.

File contents are modelled as lists of naturals; paths relative to the walk
root are lists of name components.  The sha256 checksum provider is a library
call, so it is carried as an explicit function parameter `hash`; where a claim
depends on a hash never being the empty string (Go's zero value for a missing
map key), that fact is a hypothesis.
-/

set_option autoImplicit false

namespace Deta

/-- Raw file contents (`[]byte`). -/
abbrev Bytes := List Nat

/-- A path relative to the walked root, as a list of name components. -/
abbrev Path := List String

/-- A stored state map (Go `stateMap`, a `map[string]string` from path to hex
checksum), represented as an association list with unique keys. -/
abbrev SM := List (Path × String)

/-- `isHidden` (manager.go:111): a file or directory is hidden when its base
name starts with the marker `"."` (`strings.HasPrefix(filename, ".")`; for the
one-character marker this is exactly a test of the first character). -/
def hiddenName (n : String) : Bool :=
  match n.data with
  | [] => false
  | c :: _ => c = '.'

/-- A directory entry of the current tree.  A file's content is `none` when
the file cannot be read (reading or hashing it fails with an I/O error). -/
inductive Entry where
  | file : String → Option Bytes → Entry
  | dir : String → List Entry → Entry

/-- A tree: the children of the (non-hidden) root directory. -/
abbrev Tree := List Entry

mutual
/-- One step of `filepath.Walk` as used by `storeState` (manager.go:149),
`readAll` (manager.go:208) and `GetChanges` (manager.go:266): hidden
directories are skipped as whole subtrees (`filepath.SkipDir`), hidden files
are skipped individually, every other file is visited with its content. -/
def walkEntry (pre : Path) : Entry → List (Path × Option Bytes)
  | .file n c => if hiddenName n then [] else [(pre ++ [n], c)]
  | .dir n ch => if hiddenName n then [] else walkList (pre ++ [n]) ch

/-- Walk a list of sibling entries in order. -/
def walkList (pre : Path) : List Entry → List (Path × Option Bytes)
  | [] => []
  | e :: es => walkEntry pre e ++ walkList pre es
end

/-- All files visited by the hidden-skipping walk of the tree, in walk order. -/
def walkFiles (t : Tree) : List (Path × Option Bytes) := walkList [] t

/-- Go map assignment `sm[path] = hashSum`: replace the binding when the key
is present, append it otherwise. -/
def smSet (m : SM) (p : Path) (h : String) : SM :=
  if m.any (fun kv => kv.1 = p) then
    m.map (fun kv => if kv.1 = p then (p, h) else kv)
  else m ++ [(p, h)]

/-- The loop body of `storeState` (manager.go:149-172): hash every visited
file into the state map, aborting with an error (`none`) as soon as one file
cannot be read. -/
def storeAux (hash : Bytes → String) : List (Path × Option Bytes) → SM → Option SM
  | [], m => some m
  | (_, none) :: _, _ => none
  | (p, some c) :: rest, m => storeAux hash rest (smSet m p (hash c))

/-- `storeState` (manager.go:147): the state map it computes from the current
tree, or `none` when some file cannot be read or hashed. -/
def storeStateGo (hash : Bytes → String) (t : Tree) : Option SM :=
  storeAux hash (walkFiles t) []

/-- `StateChanges`: changed or added files with their contents, plus paths
deleted since the stored snapshot. -/
structure StateChanges where
  Changes : List (Path × Bytes)
  Deletions : List Path
deriving DecidableEq, Repr

/-- The walk callback loop of `GetChanges` (manager.go:266-303), including the
source's behaviour on a read failure: the callback returns the error, which
aborts `filepath.Walk`, but the caller never checks the walk's result, so the
accumulated changes and the remaining deletion set are returned as a success.
Note the path is removed from the deletion set (manager.go:286-288) before the
checksum is attempted (manager.go:290). -/
def gcLoop (hash : Bytes → String) (stored : SM) :
    List (Path × Option Bytes) → List (Path × Bytes) → List Path → StateChanges
  | [], ch, del => ⟨ch, del⟩
  | (p, none) :: _, ch, del => ⟨ch, del.erase p⟩
  | (p, some c) :: rest, ch, del =>
    let del := del.erase p
    if ((stored.lookup p).getD "") ≠ hash c then
      gcLoop hash stored rest (ch ++ [(p, c)]) del
    else
      gcLoop hash stored rest ch del

/-- `GetChanges` (manager.go:246-312) in the case where a stored snapshot
exists: every stored path starts as a candidate deletion, the walk removes the
visited ones and records the files whose checksum differs from the stored one
(a missing key reads as Go's zero value `""`). -/
def getChangesGo (hash : Bytes → String) (stored : SM) (t : Tree) : StateChanges :=
  gcLoop hash stored (walkFiles t) [] (stored.map Prod.fst)

/-- The collection loop of `readAll` (manager.go:208-238): contents of every
visited file, or `none` on the first read failure (`readAll` does check the
walk's error). -/
def readAllAux : List (Path × Option Bytes) → Option (List (Path × Bytes))
  | [] => some []
  | (_, none) :: _ => none
  | (p, some c) :: rest => (readAllAux rest).map (fun l => (p, c) :: l)

/-- `readAll` (manager.go:203): every non-hidden file's bytes as additions,
with an empty deletion set; `none` when some file cannot be read. -/
def readAllGo (t : Tree) : Option StateChanges :=
  (readAllAux (walkFiles t)).map (fun l => ⟨l, []⟩)

/-- Program info (`ProgInfo`): the recorded runtime and dependency list. -/
structure ProgInfo where
  Runtime : String
  Deps : List String
deriving DecidableEq, Repr

/-- The error taxonomy of the embedded operations. -/
inductive Err where
  | notFound
  | corrupt
  | ioError
  | conflictingEntrypoints
  | noRuntime
  | unsupportedRuntime
  | malformedManifest
  | badManifestParse
deriving DecidableEq, Repr

/-- The persisted state owned by the snapshot store, together with the walked
tree.  A persisted file is `none` when absent, `some none` when present but
unparsable (corrupt), and `some (some v)` when it parses as `v`.  The `.deta`
directory holding the persisted files is hidden, so it is never part of the
walked tree. -/
structure World where
  tree : Tree
  stateF : Option (Option SM)
  progF : Option (Option ProgInfo)

/-- Reading and parsing the state file (`getStoredState`, manager.go:190-200):
a read returns the world unchanged. -/
def readStateFileW (w : World) : (Except Err SM) × World :=
  (match w.stateF with
   | none => .error .notFound
   | some none => .error .corrupt
   | some (some m) => .ok m, w)

/-- `GetChanges` (manager.go:246-312) over a world: a missing snapshot falls
back to `readAll` (first run), a corrupt snapshot propagates its error, and
otherwise the walk comparison runs.  No branch writes any persisted file. -/
def getChangesW (hash : Bytes → String) (w : World) :
    (Except Err StateChanges) × World :=
  let r := (readStateFileW w).1
  match r with
  | .error .notFound => ((readAllGo w.tree).elim (.error .ioError) .ok, w)
  | .error e => (.error e, w)
  | .ok stored => (.ok (getChangesGo hash stored w.tree), w)

/-- `storeState` (manager.go:147-187) over a world: on success the computed
state map is written to the state file; on a read failure nothing is written. -/
def storeStateW (hash : Bytes → String) (w : World) : (Except Err Unit) × World :=
  match storeStateGo hash w.tree with
  | none => (.error .ioError, w)
  | some sm => (.ok (), { w with stateF := some (some sm) })

/-! ## Runtime resolution and the dependency differ -/

/-- The `entryPoints` table (manager.go:25-28): entrypoint file name to
runtime, a missing key giving `none`. -/
def entryPointsGo (n : String) : Option String :=
  if n = "main.py" then some "python"
  else if n = "index.js" then some "node"
  else none

/-- The `depFiles` table (manager.go:29-32): runtime to manifest file name,
with Go's zero value `""` for a missing key. -/
def depFiles (rt : String) : String :=
  if rt = "python" then "requirements.txt"
  else if rt = "node" then "package.json"
  else ""

mutual
/-- The base names of every file in an entry, in walk order.  The walk of
`GetRuntime` (manager.go:86-100) applies no hidden filtering at all, so hidden
files and directories are included. -/
def allNamesE : Entry → List String
  | .file n _ => [n]
  | .dir _ ch => allNamesL ch

/-- Base names of every file under a list of sibling entries. -/
def allNamesL : List Entry → List String
  | [] => []
  | e :: es => allNamesE e ++ allNamesL es
end

/-- Base names of every file in the tree (the names `GetRuntime` inspects). -/
def allFileNames (t : Tree) : List String := allNamesL t

/-- The walk callback of `GetRuntime` (manager.go:86-100): on the first
entrypoint file the runtime is recorded; on any further entrypoint file the
walk aborts with the conflicting-entrypoints error, whether or not the second
file maps to the same runtime. -/
def grLoop : List String → Option String → Except Err (Option String)
  | [], acc => .ok acc
  | n :: ns, acc =>
    match entryPointsGo n with
    | none => grLoop ns acc
    | some r =>
      match acc with
      | none => grLoop ns (some r)
      | some _ => .error .conflictingEntrypoints

/-- `GetRuntime` (manager.go:83-108): the runtime named by the unique
entrypoint file, the conflicting-entrypoints error on a second entrypoint
file, or the no-supported-runtime error when none is found. -/
def getRuntime (t : Tree) : Except Err String :=
  match grLoop (allFileNames t) none with
  | .error e => .error e
  | .ok none => .error .noRuntime
  | .ok (some r) => .ok r

/-- A JSON value, as fed to `json.Unmarshal`. -/
inductive JVal where
  | jnull
  | jbool : Bool → JVal
  | jnum : Int → JVal
  | jstr : String → JVal
  | jarr : List JVal → JVal
  | jobj : List (String × JVal) → JVal

/-- A dynamically typed Go value (`interface` value), as produced by
`json.Unmarshal` into `interface` targets, plus the `map[string]string` shape
that the reflect check of `readDeps` (manager.go:337) tests for.  Unmarshal
never produces that shape: a JSON object decodes to `map[string]interface`. -/
inductive GoVal where
  | gnil
  | gbool : Bool → GoVal
  | gnum : Int → GoVal
  | gstr : String → GoVal
  | garr : List GoVal → GoVal
  | gmapSI : List (String × GoVal) → GoVal
  | gmapSS : List (String × String) → GoVal

mutual
/-- `json.Unmarshal` of one JSON value into an `interface` target: objects
decode to `map[string]interface` (`gmapSI`), never to `map[string]string`. -/
def unmarshalV : JVal → GoVal
  | .jnull => .gnil
  | .jbool b => .gbool b
  | .jnum n => .gnum n
  | .jstr s => .gstr s
  | .jarr xs => .garr (unmarshalL xs)
  | .jobj fs => .gmapSI (unmarshalF fs)

/-- Unmarshal the elements of a JSON array. -/
def unmarshalL : List JVal → List GoVal
  | [] => []
  | x :: xs => unmarshalV x :: unmarshalL xs

/-- Unmarshal the fields of a JSON object. -/
def unmarshalF : List (String × JVal) → List (String × GoVal)
  | [] => []
  | (k, v) :: fs => (k, unmarshalV v) :: unmarshalF fs
end

/-- The Node branch of `readDeps` (manager.go:326-344) on a parsed manifest:
unmarshal into `map[string]interface`, return the empty list when no
`dependencies` key exists, and otherwise require the dynamic type of the
`dependencies` value to be exactly `map[string]string` before flattening it
into `name@version` identifiers; any other dynamic type is rejected as an
unexpected format. -/
def readDepsNode : JVal → Except Err (List String)
  | .jobj fields =>
    match (unmarshalF fields).lookup "dependencies" with
    | none => .ok []
    | some d =>
      match d with
      | .gmapSS m => .ok (m.map (fun kv => kv.1 ++ "@" ++ kv.2))
      | _ => .error .malformedManifest
  | _ => .error .badManifestParse

/-- The files of the process working directory that `readDeps` can open,
keyed by bare file name, with raw textual content. `readDeps`
(manager.go:316) opens `depFiles[runtime]`, a bare relative name resolved
against the process working directory, not against the manager's root. -/
abbrev CwdFS := List (String × String)

/-- `readDeps` (manager.go:315-348): a missing manifest file yields the empty
list (`os.ErrNotExist` is swallowed by design); a Python manifest is split on
newlines; a Node manifest is JSON-parsed (the parser `jparse` stands for
`json.Unmarshal`, a library call) and handled by `readDepsNode`; any other
runtime with an existing manifest file is unsupported. -/
def readDepsGo (jparse : String → Option JVal) (cwd : CwdFS) (rt : String) :
    Except Err (List String) :=
  match cwd.lookup (depFiles rt) with
  | none => .ok []
  | some contents =>
    if rt = "python" then .ok (contents.splitOn "\n")
    else if rt = "node" then
      match jparse contents with
      | none => .error .badManifestParse
      | some j => readDepsNode j
    else .error .unsupportedRuntime

/-- `DepChanges`: identifiers added by and removed from the manifest since the
stored dependency list. -/
structure DepChanges where
  Added : List String
  Removed : List String
deriving DecidableEq, Repr

/-- The diff loop of `GetDepChanges` (manager.go:394-402): every current
identifier found in the working copy of the stored set is struck from it,
every other current identifier is an addition; what remains of the working
copy at the end is the removal set. -/
def ddLoop : List String → List String → List String → List String × List String
  | [], removed, added => (added, removed)
  | d :: ds, removed, added =>
    if d ∈ removed then ddLoop ds (removed.erase d) added
    else ddLoop ds removed (added ++ [d])

/-- The set diff of `GetDepChanges` (manager.go:387-407): the stored list is
loaded into a set (duplicate stored entries collapse, as in the Go map), then
the current identifiers are processed in order. -/
def depDiff (stored deps : List String) : DepChanges :=
  let r := ddLoop deps stored.dedup []
  ⟨r.1, r.2⟩

/-- `GetProgInfo` (manager.go:71-80): a missing program-info file is the valid
absent outcome; unparsable contents are the corrupt-state error. -/
def getProgInfoGo (progF : Option (Option ProgInfo)) : Except Err (Option ProgInfo) :=
  match progF with
  | none => .ok none
  | some none => .error .corrupt
  | some (some pi) => .ok (some pi)

/-- The state visible to `GetDepChanges`: the walked tree (for runtime
resolution), the persisted program info, and the process working directory
files (where `readDeps` looks for the manifest). -/
structure DepWorld where
  tree : Tree
  progF : Option (Option ProgInfo)
  cwd : CwdFS

/-- `GetDepChanges` (manager.go:351-408).  The source tests only
`progInfo == nil` after `GetProgInfo`, so both the absent case and the error
case take the first-run branch; in the empty-stored-deps branch a failed
`GetRuntime` leaves the runtime `""` with its error unchecked. -/
def getDepChangesW (jparse : String → Option JVal) (w : DepWorld) :
    Except Err DepChanges :=
  let piOpt : Option ProgInfo :=
    match getProgInfoGo w.progF with
    | .ok o => o
    | .error _ => none
  match piOpt with
  | none =>
    match getRuntime w.tree with
    | .error e => .error e
    | .ok rt =>
      match readDepsGo jparse w.cwd rt with
      | .error e => .error e
      | .ok deps => .ok ⟨deps, []⟩
  | some pi =>
    if pi.Deps.length = 0 then
      let rt :=
        if pi.Runtime = "" then
          match getRuntime w.tree with
          | .ok r => r
          | .error _ => ""
        else pi.Runtime
      match readDepsGo jparse w.cwd rt with
      | .error e => .error e
      | .ok deps => .ok ⟨deps, []⟩
    else
      match readDepsGo jparse w.cwd pi.Runtime with
      | .error e => .error e
      | .ok deps => .ok (depDiff pi.Deps deps)

/-! ## Path resolution of the manifest read -/

/-- The path `readDeps` opens (manager.go:316): the bare manifest name from
`depFiles`, which the operating system resolves against the process working
directory. -/
def readDepsOpenPath (cwd : Path) (rt : String) : Path := cwd ++ [depFiles rt]

/-- The manifest location inside the project root, had the name been joined
under the manager's root directory the way `progInfoPath` and `statePath` are
(manager.go:56-57). -/
def rootManifestPath (root : Path) (rt : String) : Path := root ++ [depFiles rt]

/-! ## Concrete instances used by witnesses and counterexamples -/

/-- A sample checksum provider for concrete evaluations; like the hex sha256
digest of the source it is never the empty string. -/
def hSample : Bytes → String := fun _ => "x"

/-- The state map produced by a readable walk, used to describe the output of
`storeAux` in proofs. -/
def pairsOf (hash : Bytes → String) : List (Path × Option Bytes) → SM
  | [] => []
  | (_, none) :: _ => []
  | (p, some c) :: rest => (p, hash c) :: pairsOf hash rest

/-- Tree for the read-failure scenario: `a.py` unreadable, `b.py` new. -/
def tC2 : Tree := [.file "a.py" none, .file "b.py" (some [2])]

/-- World for the read-failure scenario: a snapshot holding `a.py` is stored. -/
def wC2 : World := { tree := tC2, stateF := some (some [(["a.py"], "hA")]), progF := none }

/-- The Node manifest of the spec scenario: a `dependencies` object mapping
`flask` to `1.0` and `requests` to `2.0`. -/
def manifestC3 : JVal :=
  .jobj [("dependencies", .jobj [("flask", .jstr "1.0"), ("requests", .jstr "2.0")])]

/-- A JSON parser stub sending the manifest text `"pkg"` to `manifestC3`. -/
def jparseC3 : String → Option JVal :=
  fun s => if s = "pkg" then some manifestC3 else none

/-- World for the scenario of claim C3: stored dependency list `flask@1.0`
for the Node runtime, a `package.json` present in the working directory. -/
def wC3 : DepWorld :=
  { tree := [.file "index.js" (some [])]
    progF := some (some ⟨"node", ["flask@1.0"]⟩)
    cwd := [("package.json", "pkg")] }

/-- A JSON parser stub sending the manifest text `"pkg"` to the empty object. -/
def jparseEmpty : String → Option JVal :=
  fun s => if s = "pkg" then some (.jobj []) else none

/-- World for claim C4: the persisted program info is present but unparsable,
the tree determines the Node runtime, and a manifest exists. -/
def wC4 : DepWorld :=
  { tree := [.file "index.js" (some [])]
    progF := some none
    cwd := [("package.json", "pkg")] }

/-- Tree with two entrypoint files of the same runtime in different
directories, for claim C5. -/
def tC5 : Tree :=
  [.dir "a" [.file "main.py" (some [])], .dir "b" [.file "main.py" (some [])]]

/-- The number of entrypoint files the `GetRuntime` walk encounters. -/
def countEP (t : Tree) : Nat := ((allFileNames t).filterMap entryPointsGo).length

/-- Tree for the witnesses of claims C1 and C6. -/
def tW : Tree := [.file "a.py" (some [1]), .dir "sub" [.file "b.py" (some [2])]]

/-- Snapshot for the witness of claim C1: `old.py` was stored, is gone now. -/
def smW : SM := [(["old.py"], "h1")]

/-- Snapshot written by `storeState` on `tW` under `hSample`, for the
witnesses of claims C6 and C8. -/
def smW6 : SM := [(["a.py"], "x"), (["sub", "b.py"], "x")]

/-! ## Walker lemmas -/

mutual
/-- Every path the hidden-skipping walk emits from one entry has only
non-hidden components, provided the prefix it grows from has only non-hidden
components. -/
theorem walkEntry_not_hidden : ∀ (pre : Path) (e : Entry),
    (∀ d ∈ pre, hiddenName d = false) →
    ∀ pc ∈ walkEntry pre e, ∀ d ∈ pc.1, hiddenName d = false
  | pre, .file n c, hpre => by
    intro pc hpc d hd
    by_cases hn : hiddenName n
    · simp [walkEntry, hn] at hpc
    · simp [walkEntry, hn] at hpc
      subst hpc
      simp only at hd
      rcases List.mem_append.mp hd with h | h
      · exact hpre d h
      · simp at h
        subst h
        simpa using hn
  | pre, .dir n ch, hpre => by
    intro pc hpc
    by_cases hn : hiddenName n
    · simp [walkEntry, hn] at hpc
    · have hpre2 : ∀ d ∈ pre ++ [n], hiddenName d = false := by
        intro d hd
        rcases List.mem_append.mp hd with h | h
        · exact hpre d h
        · simp at h
          subst h
          simpa using hn
      refine walkList_not_hidden (pre ++ [n]) ch hpre2 pc ?_
      simpa [walkEntry, hn] using hpc

/-- List version of `walkEntry_not_hidden`. -/
theorem walkList_not_hidden : ∀ (pre : Path) (es : List Entry),
    (∀ d ∈ pre, hiddenName d = false) →
    ∀ pc ∈ walkList pre es, ∀ d ∈ pc.1, hiddenName d = false
  | _, [], _ => by simp [walkList]
  | pre, e :: es, hpre => by
    intro pc hpc
    rw [walkList] at hpc
    rcases List.mem_append.mp hpc with h | h
    · exact walkEntry_not_hidden pre e hpre pc h
    · exact walkList_not_hidden pre es hpre pc h
end

/-- Every path the walk of a tree visits has only non-hidden components. -/
theorem walkFiles_not_hidden (t : Tree) :
    ∀ p ∈ (walkFiles t).map Prod.fst, ∀ d ∈ p, hiddenName d = false := by
  intro p hp d hd
  rcases List.mem_map.mp hp with ⟨pc, hpc, rfl⟩
  exact walkList_not_hidden [] t (by simp) pc hpc d hd

/-! ## Change-detection loop lemmas -/

/-- Every changed path reported by the loop is either already accumulated or
visited by the walk; no read failure is needed for this direction. -/
theorem gcLoop_changes_sub (hash : Bytes → String) (stored : SM) :
    ∀ (l : List (Path × Option Bytes)) (ch : List (Path × Bytes)) (del : List Path)
      (p : Path), p ∈ (gcLoop hash stored l ch del).Changes.map Prod.fst →
      p ∈ ch.map Prod.fst ∨ p ∈ l.map Prod.fst := by
  intro l
  induction l with
  | nil =>
    intro ch del p hp
    exact Or.inl (by simpa [gcLoop] using hp)
  | cons pc rest ih =>
    intro ch del p hp
    obtain ⟨q, oc⟩ := pc
    cases oc with
    | none =>
      exact Or.inl (by simpa [gcLoop] using hp)
    | some c =>
      by_cases hc : ((stored.lookup q).getD "") ≠ hash c
      · rw [show gcLoop hash stored ((q, some c) :: rest) ch del
              = gcLoop hash stored rest (ch ++ [(q, c)]) (del.erase q) by
            simp [gcLoop, hc]] at hp
        rcases ih _ _ p hp with h | h
        · rw [List.map_append] at h
          rcases List.mem_append.mp h with h2 | h2
          · exact Or.inl h2
          · simp at h2
            subst h2
            exact Or.inr (by simp)
        · exact Or.inr (by simp [h])
      · rw [show gcLoop hash stored ((q, some c) :: rest) ch del
              = gcLoop hash stored rest ch (del.erase q) by
            simp [gcLoop, hc]] at hp
        rcases ih _ _ p hp with h | h
        · exact Or.inl h
        · exact Or.inr (by simp [h])

/-- Every deletion reported by the loop was already a candidate deletion. -/
theorem gcLoop_del_sub (hash : Bytes → String) (stored : SM) :
    ∀ (l : List (Path × Option Bytes)) (ch : List (Path × Bytes)) (del : List Path)
      (p : Path), p ∈ (gcLoop hash stored l ch del).Deletions → p ∈ del := by
  intro l
  induction l with
  | nil =>
    intro ch del p hp
    simpa [gcLoop] using hp
  | cons pc rest ih =>
    intro ch del p hp
    obtain ⟨q, oc⟩ := pc
    cases oc with
    | none =>
      exact List.erase_subset _ _ (by simpa [gcLoop] using hp)
    | some c =>
      by_cases hc : ((stored.lookup q).getD "") ≠ hash c
      · rw [show gcLoop hash stored ((q, some c) :: rest) ch del
              = gcLoop hash stored rest (ch ++ [(q, c)]) (del.erase q) by
            simp [gcLoop, hc]] at hp
        exact List.erase_subset _ _ (ih _ _ p hp)
      · rw [show gcLoop hash stored ((q, some c) :: rest) ch del
              = gcLoop hash stored rest ch (del.erase q) by
            simp [gcLoop, hc]] at hp
        exact List.erase_subset _ _ (ih _ _ p hp)

/-- When every visited file is readable, a path is reported as changed exactly
when it was already accumulated or some visited content at it hashes
differently from the stored entry (a missing entry reading as `""`). -/
theorem gcLoop_mem_changes (hash : Bytes → String) (stored : SM) :
    ∀ (l : List (Path × Option Bytes)) (ch : List (Path × Bytes)) (del : List Path),
      (∀ pc ∈ l, pc.2 ≠ none) →
      ∀ p, (p ∈ (gcLoop hash stored l ch del).Changes.map Prod.fst ↔
        p ∈ ch.map Prod.fst ∨
          ∃ c, (p, some c) ∈ l ∧ ((stored.lookup p).getD "") ≠ hash c) := by
  intro l
  induction l with
  | nil =>
    intro ch del _ p
    simp [gcLoop]
  | cons pc rest ih =>
    intro ch del hr p
    obtain ⟨q, oc⟩ := pc
    cases oc with
    | none => exact absurd rfl (hr (q, none) (by simp))
    | some c =>
      have hrest : ∀ pc ∈ rest, pc.2 ≠ none := fun pc h => hr pc (by simp [h])
      by_cases hc : ((stored.lookup q).getD "") ≠ hash c
      · rw [show gcLoop hash stored ((q, some c) :: rest) ch del
              = gcLoop hash stored rest (ch ++ [(q, c)]) (del.erase q) by
            simp [gcLoop, hc]]
        rw [ih (ch ++ [(q, c)]) (del.erase q) hrest p]
        constructor
        · rintro (h | ⟨c2, hm, hcond⟩)
          · rw [List.map_append] at h
            rcases List.mem_append.mp h with h2 | h2
            · exact Or.inl h2
            · simp at h2
              subst h2
              exact Or.inr ⟨c, by simp, hc⟩
          · exact Or.inr ⟨c2, by simp [hm], hcond⟩
        · rintro (h | ⟨c2, hm, hcond⟩)
          · exact Or.inl (by simp [h])
          · rcases List.mem_cons.mp hm with heq | hm2
            · have hp : p = q := congrArg Prod.fst heq
              have hcc : c2 = c := by
                have := congrArg Prod.snd heq
                simpa using this
              subst hp
              exact Or.inl (by simp)
            · exact Or.inr ⟨c2, hm2, hcond⟩
      · rw [show gcLoop hash stored ((q, some c) :: rest) ch del
              = gcLoop hash stored rest ch (del.erase q) by
            simp [gcLoop, hc]]
        rw [ih ch (del.erase q) hrest p]
        constructor
        · rintro (h | ⟨c2, hm, hcond⟩)
          · exact Or.inl h
          · exact Or.inr ⟨c2, by simp [hm], hcond⟩
        · rintro (h | ⟨c2, hm, hcond⟩)
          · exact Or.inl h
          · rcases List.mem_cons.mp hm with heq | hm2
            · have hp : p = q := congrArg Prod.fst heq
              have hcc : c2 = c := by
                have := congrArg Prod.snd heq
                simpa using this
              subst hp
              subst hcc
              exact absurd hcond hc
            · exact Or.inr ⟨c2, hm2, hcond⟩

/-- When every visited file is readable and the candidate deletion set has no
duplicates, a path is reported deleted exactly when it was a candidate and the
walk never visits it. -/
theorem gcLoop_mem_del (hash : Bytes → String) (stored : SM) :
    ∀ (l : List (Path × Option Bytes)) (ch : List (Path × Bytes)) (del : List Path),
      (∀ pc ∈ l, pc.2 ≠ none) → del.Nodup →
      ∀ p, (p ∈ (gcLoop hash stored l ch del).Deletions ↔
        p ∈ del ∧ p ∉ l.map Prod.fst) := by
  intro l
  induction l with
  | nil =>
    intro ch del _ _ p
    simp [gcLoop]
  | cons pc rest ih =>
    intro ch del hr hnd p
    obtain ⟨q, oc⟩ := pc
    cases oc with
    | none => exact absurd rfl (hr (q, none) (by simp))
    | some c =>
      have hrest : ∀ pc ∈ rest, pc.2 ≠ none := fun pc h => hr pc (by simp [h])
      have hnd2 : (del.erase q).Nodup := hnd.erase q
      have herase : ∀ x, x ∈ del.erase q ↔ x ≠ q ∧ x ∈ del :=
        fun x => hnd.mem_erase_iff
      by_cases hc : ((stored.lookup q).getD "") ≠ hash c
      · rw [show gcLoop hash stored ((q, some c) :: rest) ch del
              = gcLoop hash stored rest (ch ++ [(q, c)]) (del.erase q) by
            simp [gcLoop, hc]]
        rw [ih (ch ++ [(q, c)]) (del.erase q) hrest hnd2 p]
        rw [herase p]
        simp only [List.map_cons, List.mem_cons]
        constructor
        · rintro ⟨⟨hne, hdel⟩, hnm⟩
          exact ⟨hdel, by rintro (h | h); exact hne h; exact hnm h⟩
        · rintro ⟨hdel, hnm⟩
          exact ⟨⟨fun h => hnm (Or.inl h), hdel⟩, fun h => hnm (Or.inr h)⟩
      · rw [show gcLoop hash stored ((q, some c) :: rest) ch del
              = gcLoop hash stored rest ch (del.erase q) by
            simp [gcLoop, hc]]
        rw [ih ch (del.erase q) hrest hnd2 p]
        rw [herase p]
        simp only [List.map_cons, List.mem_cons]
        constructor
        · rintro ⟨⟨hne, hdel⟩, hnm⟩
          exact ⟨hdel, by rintro (h | h); exact hne h; exact hnm h⟩
        · rintro ⟨hdel, hnm⟩
          exact ⟨⟨fun h => hnm (Or.inl h), hdel⟩, fun h => hnm (Or.inr h)⟩

/-! ## Snapshot-store lemmas -/

/-- A successful `storeState` walk read every file it visited. -/
theorem storeAux_readable (hash : Bytes → String) :
    ∀ (l : List (Path × Option Bytes)) (m sm : SM), storeAux hash l m = some sm →
      ∀ pc ∈ l, pc.2 ≠ none := by
  intro l
  induction l with
  | nil => simp
  | cons pc rest ih =>
    intro m sm hs
    obtain ⟨q, oc⟩ := pc
    cases oc with
    | none => simp [storeAux] at hs
    | some c =>
      rw [storeAux] at hs
      intro pc2 hm
      rcases List.mem_cons.mp hm with h | h
      · subst h
        simp
      · exact ih _ _ hs pc2 h

/-- Go map assignment on an absent key appends the binding. -/
theorem smSet_of_not_mem (m : SM) (p : Path) (hs : String)
    (h : ∀ kv ∈ m, kv.1 ≠ p) : smSet m p hs = m ++ [(p, hs)] := by
  have hany : m.any (fun kv => kv.1 = p) = false := by
    rw [List.any_eq_false]
    intro kv hkv
    simpa using h kv hkv
  simp [smSet, hany]

/-- Go map assignment adds at most the assigned key. -/
theorem smSet_keys_sub (m : SM) (p : Path) (hs : String) :
    ∀ x ∈ (smSet m p hs).map Prod.fst, x ∈ m.map Prod.fst ∨ x = p := by
  intro x hx
  by_cases hany : m.any (fun kv => kv.1 = p)
  · simp only [smSet, hany, if_pos] at hx
    rw [List.map_map] at hx
    rcases List.mem_map.mp hx with ⟨kv, hkv, heq⟩
    by_cases hkp : kv.1 = p
    · right
      simpa [Function.comp, hkp] using heq.symm
    · left
      rw [List.mem_map]
      exact ⟨kv, hkv, by simpa [Function.comp, hkp] using heq⟩
  · simp only [smSet, hany, if_neg, Bool.false_eq_true, not_false_iff] at hx
    rw [List.map_append, List.mem_append] at hx
    rcases hx with h | h
    · exact Or.inl h
    · simp at h
      exact Or.inr h

/-- On a walk with no duplicate paths, all disjoint from the accumulated map,
a successful `storeState` loop appends exactly one hash entry per visited
file. -/
theorem storeAux_eq_pairs (hash : Bytes → String) :
    ∀ (l : List (Path × Option Bytes)) (m sm : SM),
      (l.map Prod.fst).Nodup →
      (∀ q ∈ l.map Prod.fst, ∀ kv ∈ m, kv.1 ≠ q) →
      storeAux hash l m = some sm → sm = m ++ pairsOf hash l := by
  intro l
  induction l with
  | nil =>
    intro m sm _ _ hs
    simp [storeAux] at hs
    simp [pairsOf, hs.symm]
  | cons pc rest ih =>
    intro m sm hnd hdisj hs
    obtain ⟨q, oc⟩ := pc
    cases oc with
    | none => simp [storeAux] at hs
    | some c =>
      rw [storeAux] at hs
      have hqm : ∀ kv ∈ m, kv.1 ≠ q := hdisj q (by simp)
      rw [smSet_of_not_mem m q (hash c) hqm] at hs
      have hnd2 : (rest.map Prod.fst).Nodup := by
        simpa using hnd.of_cons
      have hq_not : q ∉ rest.map Prod.fst := by
        have := hnd
        simp only [List.map_cons] at this
        exact (List.nodup_cons.mp this).1
      have hdisj2 : ∀ x ∈ rest.map Prod.fst, ∀ kv ∈ m ++ [(q, hash c)], kv.1 ≠ x := by
        intro x hx kv hkv
        rcases List.mem_append.mp hkv with h | h
        · exact hdisj x (by simp [hx]) kv h
        · simp at h
          subst h
          intro hqx
          have hqx2 : q = x := hqx
          exact hq_not (hqx2 ▸ hx)
      have := ih (m ++ [(q, hash c)]) sm hnd2 hdisj2 hs
      simpa [pairsOf, List.append_assoc] using this

/-- The hash entry a successful readable walk stores for a visited file. -/
theorem pairsOf_lookup (hash : Bytes → String) :
    ∀ (l : List (Path × Option Bytes)) (p : Path) (c : Bytes),
      (l.map Prod.fst).Nodup → (∀ pc ∈ l, pc.2 ≠ none) →
      (p, some c) ∈ l → (pairsOf hash l).lookup p = some (hash c) := by
  intro l
  induction l with
  | nil => simp
  | cons pc rest ih =>
    intro p c hnd hr hm
    obtain ⟨q, oc⟩ := pc
    cases oc with
    | none => exact absurd rfl (hr (q, none) (by simp))
    | some c0 =>
      have hq_not : q ∉ rest.map Prod.fst := by
        simp only [List.map_cons] at hnd
        exact (List.nodup_cons.mp hnd).1
      rcases List.mem_cons.mp hm with h | h
      · have hp : p = q := congrArg Prod.fst h
        have hc : c = c0 := by
          have := congrArg Prod.snd h
          simpa using this
        subst hp
        subst hc
        simp [pairsOf, List.lookup]
      · have hpq : p ≠ q := by
          intro he
          subst he
          exact hq_not (List.mem_map.mpr ⟨(p, some c), h, rfl⟩)
        have hrest : ∀ pc ∈ rest, pc.2 ≠ none := fun pc hh => hr pc (by simp [hh])
        have hnd2 : (rest.map Prod.fst).Nodup := by
          simp only [List.map_cons] at hnd
          exact (List.nodup_cons.mp hnd).2
        rw [pairsOf]
        rw [List.lookup]
        have : (p == q) = false := by
          simpa using hpq
        rw [this]
        exact ih p c hnd2 hrest h

/-- On a fully readable walk the stored keys are exactly the visited paths. -/
theorem pairsOf_keys (hash : Bytes → String) :
    ∀ (l : List (Path × Option Bytes)), (∀ pc ∈ l, pc.2 ≠ none) →
      (pairsOf hash l).map Prod.fst = l.map Prod.fst := by
  intro l
  induction l with
  | nil => simp [pairsOf]
  | cons pc rest ih =>
    intro hr
    obtain ⟨q, oc⟩ := pc
    cases oc with
    | none => exact absurd rfl (hr (q, none) (by simp))
    | some c =>
      have hrest : ∀ pc ∈ rest, pc.2 ≠ none := fun pc hh => hr pc (by simp [hh])
      simp [pairsOf, ih hrest]

/-- Every key of a stored snapshot comes from the walk that produced it (no
duplicate-freedom or readability needed). -/
theorem storeAux_keys_sub (hash : Bytes → String) :
    ∀ (l : List (Path × Option Bytes)) (m sm : SM), storeAux hash l m = some sm →
      ∀ p ∈ sm.map Prod.fst, p ∈ m.map Prod.fst ∨ p ∈ l.map Prod.fst := by
  intro l
  induction l with
  | nil =>
    intro m sm hs p hp
    simp [storeAux] at hs
    subst hs
    exact Or.inl hp
  | cons pc rest ih =>
    intro m sm hs p hp
    obtain ⟨q, oc⟩ := pc
    cases oc with
    | none => simp [storeAux] at hs
    | some c =>
      rw [storeAux] at hs
      rcases ih _ _ hs p hp with h | h
      · rcases smSet_keys_sub m q (hash c) p h with h2 | h2
        · exact Or.inl h2
        · exact Or.inr (by simp [h2])
      · exact Or.inr (by simp [h])

/-- In a list with duplicate-free keys, a key determines its value. -/
theorem nodup_keys_snd_eq {α β : Type} (l : List (α × β))
    (h : (l.map Prod.fst).Nodup) :
    ∀ a x y, (a, x) ∈ l → (a, y) ∈ l → x = y := by
  induction l with
  | nil => simp
  | cons kv rest ih =>
    intro a x y h1 h2
    obtain ⟨q, v⟩ := kv
    simp only [List.map_cons] at h
    have hq_not : q ∉ rest.map Prod.fst := (List.nodup_cons.mp h).1
    have hnd2 : (rest.map Prod.fst).Nodup := (List.nodup_cons.mp h).2
    rcases List.mem_cons.mp h1 with e1 | m1
    · have ha : a = q := congrArg Prod.fst e1
      have hx : x = v := by
        have := congrArg Prod.snd e1
        simpa using this
      rcases List.mem_cons.mp h2 with e2 | m2
      · have hy : y = v := by
          have := congrArg Prod.snd e2
          simpa using this
        rw [hx, hy]
      · exact absurd (List.mem_map.mpr ⟨(a, y), m2, ha⟩) hq_not
    · rcases List.mem_cons.mp h2 with e2 | m2
      · have ha : a = q := congrArg Prod.fst e2
        exact absurd (List.mem_map.mpr ⟨(a, x), m1, ha⟩) hq_not
      · exact ih hnd2 a x y m1 m2

/-! ## Claim theorems -/

/-- C1: for every stored snapshot and current tree, `GetChanges` classifies
each path into exactly one of three disjoint classes: a path is a key of the
`Changes` mapping iff a non-hidden file exists at it (it is visited by the
hidden-excluding walk) and it is absent from the stored snapshot or its
current fingerprint differs from the stored one; a path is in `Deletions` iff
it is a key of the stored snapshot and the walk visits no file at it; and a
visited path with matching fingerprint is in neither. -/
theorem C1_getChanges_partition (hash : Bytes → String) (stored : SM) (t : Tree)
    (hh : ∀ b, hash b ≠ "")
    (hks : (stored.map Prod.fst).Nodup)
    (hr : ∀ pc ∈ walkFiles t, pc.2 ≠ none)
    (hw : ((walkFiles t).map Prod.fst).Nodup) :
    (∀ p, p ∈ (getChangesGo hash stored t).Changes.map Prod.fst ↔
      ∃ c, (p, some c) ∈ walkFiles t ∧
        (stored.lookup p = none ∨ ∃ hv, stored.lookup p = some hv ∧ hv ≠ hash c)) ∧
    (∀ p, p ∈ (getChangesGo hash stored t).Deletions ↔
      p ∈ stored.map Prod.fst ∧ p ∉ (walkFiles t).map Prod.fst) ∧
    (∀ p, ¬ (p ∈ (getChangesGo hash stored t).Changes.map Prod.fst ∧
      p ∈ (getChangesGo hash stored t).Deletions)) ∧
    (∀ p c, (p, some c) ∈ walkFiles t → stored.lookup p = some (hash c) →
      p ∉ (getChangesGo hash stored t).Changes.map Prod.fst ∧
      p ∉ (getChangesGo hash stored t).Deletions) := by
  have hgc : getChangesGo hash stored t
      = gcLoop hash stored (walkFiles t) [] (stored.map Prod.fst) := rfl
  have hbridge : ∀ p c, (((stored.lookup p).getD "") ≠ hash c) ↔
      (stored.lookup p = none ∨ ∃ hv, stored.lookup p = some hv ∧ hv ≠ hash c) := by
    intro p c
    cases hl : stored.lookup p with
    | none =>
      simp only [hl, Option.getD_none]
      constructor
      · intro _
        exact Or.inl trivial
      · intro _
        exact Ne.symm (hh c)
    | some v => simp [hl]
  have hchanges : ∀ p, p ∈ (getChangesGo hash stored t).Changes.map Prod.fst ↔
      ∃ c, (p, some c) ∈ walkFiles t ∧
        (stored.lookup p = none ∨ ∃ hv, stored.lookup p = some hv ∧ hv ≠ hash c) := by
    intro p
    rw [hgc]
    have hch := gcLoop_mem_changes hash stored (walkFiles t) [] (stored.map Prod.fst) hr p
    simp only [List.map_nil, List.not_mem_nil, false_or] at hch
    rw [hch]
    constructor
    · rintro ⟨c, hm, hcond⟩
      exact ⟨c, hm, (hbridge p c).mp hcond⟩
    · rintro ⟨c, hm, hcond⟩
      exact ⟨c, hm, (hbridge p c).mpr hcond⟩
  have hdels : ∀ p, p ∈ (getChangesGo hash stored t).Deletions ↔
      p ∈ stored.map Prod.fst ∧ p ∉ (walkFiles t).map Prod.fst := by
    intro p
    rw [hgc]
    exact gcLoop_mem_del hash stored (walkFiles t) [] (stored.map Prod.fst) hr hks p
  refine ⟨hchanges, hdels, ?_, ?_⟩
  · rintro p ⟨hc, hd⟩
    rcases (hchanges p).mp hc with ⟨c, hm, _⟩
    rcases (hdels p).mp hd with ⟨_, hnot⟩
    exact hnot (List.mem_map.mpr ⟨(p, some c), hm, rfl⟩)
  · intro p c hm hl
    constructor
    · intro hc
      rcases (hchanges p).mp hc with ⟨c2, hm2, hcond⟩
      have hee : some c = some c2 :=
        nodup_keys_snd_eq (walkFiles t) hw p (some c) (some c2) hm hm2
      have hc2 : c = c2 := by
        simpa using hee
      rw [← hc2] at hcond
      rcases hcond with h | ⟨hv, hveq, hvne⟩
      · rw [hl] at h
        exact Option.some_ne_none _ h
      · rw [hl] at hveq
        have hveq2 : hash c = hv := by
          simpa using hveq
        exact hvne hveq2.symm
    · intro hd
      rcases (hdels p).mp hd with ⟨_, hnot⟩
      exact hnot (List.mem_map.mpr ⟨(p, some c), hm, rfl⟩)

/-- The sample checksum provider never returns the empty string. -/
theorem hSample_ne_empty : ∀ b, hSample b ≠ "" :=
  fun _ h => (by decide : ("x" : String) ≠ "") h

/-- Witness for C1 at a concrete snapshot and tree: the hypotheses hold and
the partition statement follows by applying the theorem. -/
theorem C1_witness :
    (∀ b, hSample b ≠ "") ∧ (smW.map Prod.fst).Nodup ∧
    (∀ pc ∈ walkFiles tW, pc.2 ≠ none) ∧ ((walkFiles tW).map Prod.fst).Nodup ∧
    ((∀ p, p ∈ (getChangesGo hSample smW tW).Changes.map Prod.fst ↔
      ∃ c, (p, some c) ∈ walkFiles tW ∧
        (smW.lookup p = none ∨ ∃ hv, smW.lookup p = some hv ∧ hv ≠ hSample c)) ∧
    (∀ p, p ∈ (getChangesGo hSample smW tW).Deletions ↔
      p ∈ smW.map Prod.fst ∧ p ∉ (walkFiles tW).map Prod.fst) ∧
    (∀ p, ¬ (p ∈ (getChangesGo hSample smW tW).Changes.map Prod.fst ∧
      p ∈ (getChangesGo hSample smW tW).Deletions)) ∧
    (∀ p c, (p, some c) ∈ walkFiles tW → smW.lookup p = some (hSample c) →
      p ∉ (getChangesGo hSample smW tW).Changes.map Prod.fst ∧
      p ∉ (getChangesGo hSample smW tW).Deletions)) :=
  ⟨hSample_ne_empty, by decide, by decide, by decide,
    C1_getChanges_partition hSample smW tW hSample_ne_empty (by decide)
      (by decide) (by decide)⟩

/-- C2 (code bug): with a stored snapshot present, a failure to read a file
during the walk does not abort `GetChanges`.  The walk callback returns the
error, but the caller discards `filepath.Walk`'s result (manager.go:266 is the
last use of `err`; manager.go:311 returns `sc, nil` unconditionally), so a
partial `StateChanges` is returned as a success: here `a.py` is unreadable and
the new readable file `b.py` is silently missing from the changes. -/
theorem C2_walk_error_swallowed :
    (∃ pc ∈ walkFiles wC2.tree, pc.2 = none) ∧
    (getChangesW hSample wC2).1 = .ok { Changes := [], Deletions := [] } :=
  ⟨by decide, rfl⟩

/-- C9: `GetChanges` never mutates persisted state: over every world — with a
stored snapshot, with a corrupt one, or on a first run through `readAll` — it
returns the world unchanged. -/
theorem C9_getChanges_pure (hash : Bytes → String) (w : World) :
    (getChangesW hash w).2 = w := by
  obtain ⟨t, sf, pf⟩ := w
  cases sf with
  | none => rfl
  | some o =>
    cases o with
    | none => rfl
    | some m => rfl

/-- C6: a successful snapshot write (`storeState`) followed immediately by
`GetChanges`, with no intervening change to the tree, yields empty `Changes`
and empty `Deletions`. -/
theorem C6_store_then_getChanges_empty (hash : Bytes → String) (w w2 : World)
    (u : Unit) (hst : storeStateW hash w = (.ok u, w2))
    (hnd : ((walkFiles w.tree).map Prod.fst).Nodup) :
    (getChangesW hash w2).1 = .ok { Changes := [], Deletions := [] } := by
  cases hsg : storeStateGo hash w.tree with
  | none =>
    rw [storeStateW, hsg] at hst
    simp at hst
  | some sm =>
    rw [storeStateW, hsg] at hst
    rw [Prod.mk.injEq] at hst
    obtain ⟨-, hw2⟩ := hst
    have hread := storeAux_readable hash (walkFiles w.tree) [] sm hsg
    have hpairs : sm = pairsOf hash (walkFiles w.tree) := by
      simpa using storeAux_eq_pairs hash (walkFiles w.tree) [] sm hnd (by simp) hsg
    have hkeys : sm.map Prod.fst = (walkFiles w.tree).map Prod.fst := by
      rw [hpairs]
      exact pairsOf_keys hash (walkFiles w.tree) hread
    have hC : (getChangesGo hash sm w.tree).Changes.map Prod.fst = [] := by
      rw [List.eq_nil_iff_forall_not_mem]
      intro p hp
      have hch := gcLoop_mem_changes hash sm (walkFiles w.tree) [] (sm.map Prod.fst)
        hread p
      simp only [List.map_nil, List.not_mem_nil, false_or] at hch
      rcases hch.mp hp with ⟨c, hm, hcond⟩
      have hl : sm.lookup p = some (hash c) := by
        rw [hpairs]
        exact pairsOf_lookup hash (walkFiles w.tree) p c hnd hread hm
      rw [hl] at hcond
      exact hcond rfl
    have hD : (getChangesGo hash sm w.tree).Deletions = [] := by
      rw [List.eq_nil_iff_forall_not_mem]
      intro p hp
      have hdl := gcLoop_mem_del hash sm (walkFiles w.tree) [] (sm.map Prod.fst)
        hread (by rw [hkeys]; exact hnd) p
      rcases hdl.mp hp with ⟨hin, hout⟩
      rw [hkeys] at hin
      exact hout hin
    have hsc : getChangesGo hash sm w.tree = ⟨[], []⟩ := by
      cases hg : getChangesGo hash sm w.tree with
      | mk C D =>
        rw [hg] at hC hD
        simp only at hC hD
        rw [List.map_eq_nil_iff] at hC
        rw [hC, hD]
    rw [← hw2]
    simp [getChangesW, readStateFileW, hsc]

/-- Witness for C6: storing the state of a concrete two-file tree and
rerunning `GetChanges` on the written world returns the empty delta. -/
theorem C6_witness :
    storeStateW hSample { tree := tW, stateF := none, progF := none }
      = (.ok (), { tree := tW, stateF := some (some smW6), progF := none }) ∧
    ((walkFiles tW).map Prod.fst).Nodup ∧
    (getChangesW hSample { tree := tW, stateF := some (some smW6), progF := none }).1
      = .ok { Changes := [], Deletions := [] } :=
  ⟨rfl, by decide,
    C6_store_then_getChanges_empty hSample
      { tree := tW, stateF := none, progF := none }
      { tree := tW, stateF := some (some smW6), progF := none }
      () rfl (by decide)⟩

/-- C8: a file lying under a directory whose base name starts with the hidden
marker is never a key of a snapshot produced by `storeState`, and never
appears among the `Changes` keys or the `Deletions` of a `GetChanges` run
against such a snapshot, whatever the current tree holds at it. -/
theorem C8_hidden_excluded (hash : Bytes → String) (sm : SM) (t t0 : Tree)
    (p : Path) (hsm : storeStateGo hash t0 = some sm)
    (hp : ∃ d ∈ p.dropLast, hiddenName d = true) :
    p ∉ sm.map Prod.fst ∧
    p ∉ (getChangesGo hash sm t).Changes.map Prod.fst ∧
    p ∉ (getChangesGo hash sm t).Deletions := by
  obtain ⟨d, hd, hdh⟩ := hp
  have hnw : ∀ t1 : Tree, p ∉ (walkFiles t1).map Prod.fst := by
    intro t1 hmem
    have hf := walkFiles_not_hidden t1 p hmem d (List.dropLast_subset _ hd)
    rw [hdh] at hf
    cases hf
  have hkeys : p ∉ sm.map Prod.fst := by
    intro hk
    rcases storeAux_keys_sub hash (walkFiles t0) [] sm hsm p hk with h | h
    · simp at h
    · exact hnw t0 h
  refine ⟨hkeys, ?_, ?_⟩
  · intro hc
    rcases gcLoop_changes_sub hash sm (walkFiles t) [] (sm.map Prod.fst) p hc
      with h | h
    · simp at h
    · exact hnw t h
  · intro hdel
    exact hkeys (gcLoop_del_sub hash sm (walkFiles t) [] (sm.map Prod.fst) p hdel)

/-- Witness for C8: a path under the hidden `.deta` directory is absent from
the stored snapshot of a concrete tree and from both parts of the delta. -/
theorem C8_witness :
    storeStateGo hSample tW = some smW6 ∧
    (∃ d ∈ ([".deta", "state"] : Path).dropLast, hiddenName d = true) ∧
    (([".deta", "state"] : Path) ∉ smW6.map Prod.fst ∧
      ([".deta", "state"] : Path) ∉ (getChangesGo hSample smW6 tW).Changes.map Prod.fst ∧
      ([".deta", "state"] : Path) ∉ (getChangesGo hSample smW6 tW).Deletions) :=
  ⟨rfl, by decide,
    C8_hidden_excluded hSample smW6 tW tW [".deta", "state"] rfl (by decide)⟩

/-- The `GetRuntime` fold, characterised by the entrypoint files the walk
encounters: with no runtime recorded yet, zero entrypoint files end as
not-found, exactly one resolves it, two or more conflict; with one already
recorded, any further entrypoint file conflicts. -/
theorem grLoop_eq : ∀ (ns : List String) (acc : Option String),
    grLoop ns acc = (match acc, ns.filterMap entryPointsGo with
      | none, [] => .ok none
      | none, [r] => .ok (some r)
      | none, _ :: _ :: _ => .error .conflictingEntrypoints
      | some r, [] => .ok (some r)
      | some _, _ :: _ => .error .conflictingEntrypoints) := by
  intro ns
  induction ns with
  | nil =>
    intro acc
    cases acc with
    | none => rfl
    | some r => rfl
  | cons n ns ih =>
    intro acc
    cases he : entryPointsGo n with
    | none =>
      have h1 : grLoop (n :: ns) acc = grLoop ns acc := by
        rw [grLoop, he]
      rw [h1, List.filterMap_cons_none he, ih]
    | some r =>
      have hfm : (n :: ns).filterMap entryPointsGo = r :: ns.filterMap entryPointsGo :=
        List.filterMap_cons_some he
      cases acc with
      | none =>
        have h1 : grLoop (n :: ns) none = grLoop ns (some r) := by
          rw [grLoop, he]
        rw [h1, ih, hfm]
        cases ns.filterMap entryPointsGo with
        | nil => rfl
        | cons r2 tl => rfl
      | some r0 =>
        have h1 : grLoop (n :: ns) (some r0) = .error .conflictingEntrypoints := by
          rw [grLoop, he]
        rw [h1, hfm]

/-- Counterexample to C5 as stated: the tree holds two `main.py` entrypoint
files in different directories — a single distinct runtime — yet `GetRuntime`
fails with the conflicting-entrypoints error, because the source compares
nothing: any second entrypoint file aborts (manager.go:92-97). -/
theorem C5_cex :
    ((allFileNames tC5).filterMap entryPointsGo).dedup = ["python"] ∧
    getRuntime tC5 = .error .conflictingEntrypoints := by
  constructor
  · rfl
  · rfl

/-- C5 as amended: runtime resolution fails with the ambiguity error exactly
when the walk encounters at least two entrypoint files, distinct runtimes or
not, and fails with the unsupported-runtime error exactly when it encounters
none. -/
theorem C5_runtime_errors (t : Tree) :
    (getRuntime t = .error .conflictingEntrypoints ↔ 2 ≤ countEP t) ∧
    (getRuntime t = .error .noRuntime ↔ countEP t = 0) := by
  rw [getRuntime, grLoop_eq]
  cases hfm : (allFileNames t).filterMap entryPointsGo with
  | nil => simp [countEP, hfm]
  | cons r tl =>
    cases tl with
    | nil => simp [countEP, hfm]
    | cons r2 tl2 =>
      simp [countEP, hfm]

/-- Counterexample to the consequence clause of C10 as stated: with working
directory `a/b` and project root `a`, the path `readDeps` opens lies inside
the project root and a manifest is found there, so the diff neither reads
outside the root nor finds none — yet the root differs from the working
directory. -/
theorem C10_cex :
    (["a", "b"] : Path) ≠ (["a"] : Path) ∧
    readDepsOpenPath ["a", "b"] "python" = ["a", "b", "requirements.txt"] ∧
    List.isPrefixOf (["a"] : Path) (readDepsOpenPath ["a", "b"] "python") = true ∧
    ([(["a", "b", "requirements.txt"], "flask")] : List (Path × String)).lookup
      (readDepsOpenPath ["a", "b"] "python") = some "flask" := by
  refine ⟨by decide, rfl, by decide, rfl⟩

/-- C10 as amended: `readDeps` opens the bare manifest name resolved against
the process working directory, so whenever the working directory differs from
the manager's root the opened path is never the project root's manifest path
(the root-joined location used for the snapshot and program-info files). -/
theorem C10_manifest_path_not_root (cwd root : Path) (rt : String)
    (h : cwd ≠ root) : readDepsOpenPath cwd rt ≠ rootManifestPath root rt := by
  intro he
  apply h
  have hd := congrArg List.dropLast he
  simpa [readDepsOpenPath, rootManifestPath] using hd

/-- Witness for C10: a concrete working directory differing from the root. -/
theorem C10_witness :
    (["a", "b"] : Path) ≠ ["c"] ∧
    readDepsOpenPath ["a", "b"] "python" ≠ rootManifestPath ["c"] "python" :=
  ⟨by decide, C10_manifest_path_not_root ["a", "b"] ["c"] "python" (by decide)⟩

/-- The dependency diff loop, when the current identifiers have no duplicates
and all occur in the working set, adds nothing and strikes each in turn. -/
theorem ddLoop_eq_foldl : ∀ (ds removed added : List String), ds.Nodup →
    (∀ d ∈ ds, d ∈ removed) →
    ddLoop ds removed added = (added, ds.foldl (fun r d => r.erase d) removed) := by
  intro ds
  induction ds with
  | nil =>
    intro removed added _ _
    rfl
  | cons d ds ih =>
    intro removed added hnd hall
    have hdm : d ∈ removed := hall d (by simp)
    have h1 : ddLoop (d :: ds) removed added = ddLoop ds (removed.erase d) added := by
      rw [ddLoop]
      simp [hdm]
    rw [h1]
    have hnd2 : ds.Nodup := hnd.of_cons
    have hd_not : d ∉ ds := (List.nodup_cons.mp hnd).1
    have hall2 : ∀ x ∈ ds, x ∈ removed.erase d := by
      intro x hx
      have hxd : x ≠ d := fun he => hd_not (he ▸ hx)
      exact (List.mem_erase_of_ne hxd).mpr (hall x (by simp [hx]))
    rw [ih (removed.erase d) added hnd2 hall2]
    rfl

/-- Erasing, one by one, every element of a duplicate-free working set that is
covered by the eraser list leaves the empty list. -/
theorem foldl_erase_nil : ∀ (l r : List String), r.Nodup → (∀ x ∈ r, x ∈ l) →
    l.foldl (fun r d => r.erase d) r = [] := by
  intro l
  induction l with
  | nil =>
    intro r _ hall
    have : r = [] := List.eq_nil_iff_forall_not_mem.mpr (fun x hx => by
      exact absurd (hall x hx) (List.not_mem_nil x))
    simp [this]
  | cons d l ih =>
    intro r hnd hall
    have h1 : (d :: l).foldl (fun r d => r.erase d) r
        = l.foldl (fun r d => r.erase d) (r.erase d) := rfl
    rw [h1]
    refine ih (r.erase d) (hnd.erase d) ?_
    intro x hx
    have hxd : x ≠ d := (hnd.mem_erase_iff.mp hx).1
    have hxr : x ∈ r := (hnd.mem_erase_iff.mp hx).2
    rcases List.mem_cons.mp (hall x hxr) with h | h
    · exact absurd h hxd
    · exact h

/-- Counterexample to C7 as stated: current list `[a, a]` and stored list
`[a]` have equal identifier sets, yet the diff reports `a` as added — the
second occurrence no longer finds `a` in the working copy of the stored set
(manager.go:394-402) and is appended to `Added`. -/
theorem C7_cex :
    (["a", "a"] : List String).toFinset = (["a"] : List String).toFinset ∧
    (depDiff ["a"] ["a", "a"]).Added = ["a"] := by
  refine ⟨by decide, rfl⟩

/-- C7 as amended: when the current identifier list is duplicate-free and its
set equals the stored list's set, `GetDepChanges`'s diff returns empty `Added`
and empty `Removed`. -/
theorem C7_depDiff_set_equal (stored deps : List String)
    (hnd : deps.Nodup) (hset : deps.toFinset = stored.toFinset) :
    (depDiff stored deps).Added = [] ∧ (depDiff stored deps).Removed = [] := by
  have hsub1 : ∀ x ∈ deps, x ∈ stored.dedup := by
    intro x hx
    rw [List.mem_dedup]
    exact List.mem_toFinset.mp (hset ▸ List.mem_toFinset.mpr hx)
  have hsub2 : ∀ x ∈ stored.dedup, x ∈ deps := by
    intro x hx
    rw [List.mem_dedup] at hx
    exact List.mem_toFinset.mp (hset.symm ▸ List.mem_toFinset.mpr hx)
  have h1 := ddLoop_eq_foldl deps stored.dedup [] hnd hsub1
  have h2 := foldl_erase_nil deps stored.dedup stored.nodup_dedup hsub2
  have hdd : depDiff stored deps = ⟨[], []⟩ := by
    rw [depDiff]
    rw [h1, h2]
  rw [hdd]
  exact ⟨rfl, rfl⟩

/-- Witness for C7: equal two-element sets in different orders diff to the
empty delta. -/
theorem C7_witness :
    (["a", "b"] : List String).Nodup ∧
    (["a", "b"] : List String).toFinset = (["b", "a"] : List String).toFinset ∧
    ((depDiff ["b", "a"] ["a", "b"]).Added = [] ∧
      (depDiff ["b", "a"] ["a", "b"]).Removed = []) :=
  ⟨by decide, by decide,
    C7_depDiff_set_equal ["b", "a"] ["a", "b"] (by decide) (by decide)⟩

/-- C3 (code bug): a Node manifest whose `dependencies` field is a flat
string-to-string JSON object is always rejected.  `json.Unmarshal` into an
`interface` target decodes the object to `map[string]interface`, never to the
`map[string]string` that the reflect check (manager.go:337) demands, so
`readDeps` fails with the unexpected-format error and the spec scenario with
`flask`/`requests` propagates that error out of `GetDepChanges` instead of
returning `Added = [requests@2.0]`. -/
theorem C3_node_deps_rejected :
    readDepsNode manifestC3 = .error .malformedManifest ∧
    getDepChangesW jparseC3 wC3 = .error .malformedManifest :=
  ⟨rfl, rfl⟩

/-- C4 (code bug): when the persisted program info exists but does not parse,
`GetProgInfo` returns the corrupt-state error, but `GetDepChanges` tests only
`progInfo == nil` (manager.go:353) and so swallows the error and proceeds as
a first run, returning a successful delta instead of propagating the error. -/
theorem C4_corrupt_info_swallowed :
    getProgInfoGo wC4.progF = .error .corrupt ∧
    getDepChangesW jparseEmpty wC4 = .ok { Added := [], Removed := [] } :=
  ⟨rfl, rfl⟩

end Deta
